import Mathlib

/-!
Verification of the synchrotron file-synchronisation engine.

Shallow embedding of the core sync logic:
* `src/sync/manifest.ts`   — ignore predicate, manifest diffing
* `src/sync/watcher.ts`    — the watcher's own ignore predicate
* `src/sync/metadata.ts`   — directory-level metadata reader
* `src/sync/file-metadata.ts` — file-set sidecar reader
* `src/sync/engine.ts`     — directory-set pass, file-set pass, conflict resolution

Filesystem state is modelled explicitly: a disk is a function from
(directory path, relative path) to an optional file, a file being its
content hash, size and mtime (the engine treats hash equality as content
equality).  Fallible filesystem operations take a success oracle; a `false`
answer models a permission / lock / transient I-O failure, mirroring the
places where the TypeScript can throw.
-/

namespace Synchrotron

/-! ### String helpers (models of the JS string / path operations used) -/

/-- Model of `a.startsWith(b)` via character lists. -/
def listIsPre : List Char → List Char → Bool
  | [], _ => true
  | _ :: _, [] => false
  | x :: xs, y :: ys => x == y && listIsPre xs ys

/-- Model of `String.prototype.startsWith`. -/
def strStarts (s pre : String) : Bool :=
  listIsPre pre.toList s.toList

/-- Model of `String.prototype.endsWith`. -/
def strEnds (s suf : String) : Bool :=
  listIsPre suf.toList.reverse s.toList.reverse

/-- Does `sub` occur as a contiguous substring of `hay`? -/
def containsSubList (hay sub : List Char) : Bool :=
  match hay with
  | [] => sub.isEmpty
  | _ :: t => listIsPre sub hay || containsSubList t sub

/-- Model of `String.prototype.includes`. -/
def strIncl (s sub : String) : Bool :=
  containsSubList s.toList sub.toList

/-- Characters after the last `/`, accumulator-style. -/
def afterLastSlash : List Char → List Char → List Char
  | [], acc => acc.reverse
  | c :: rest, acc =>
    if c == '/' then afterLastSlash rest [] else afterLastSlash rest (c :: acc)

/-- Model of `path.basename` (posix) on the slash-separated relative paths
the engine feeds it: the component after the last slash. -/
def basename (p : String) : String :=
  String.mk (afterLastSlash p.toList [])

/-! ### Configuration defaults (`src/config/types.ts`, `CONFIG_DEFAULTS`) -/

def metadataFileName : String := ".sync"

def sidecarExtension : String := ".sync"

/-! ### The manifest builder's ignore predicate (`src/sync/manifest.ts:28-50`)

`minimatch` is an external glob library; it is abstracted as a parameter
`globMatch : relativePath → pattern → Bool`. -/

def shouldIgnore (globMatch : String → String → Bool)
    (ignorePatterns : List String) (relativePath : String) : Bool :=
  let bn := basename relativePath
  if bn == metadataFileName then true
  else if strEnds bn sidecarExtension then true
  else if strStarts bn (metadataFileName ++ ".") then true
  else if bn == ".synchrotron" || strStarts bn ".synchrotron." then true
  else if strIncl bn "sync-conflict" then true
  else ignorePatterns.any (fun pattern => globMatch relativePath pattern)

/-! ### The watcher's ignore predicate (`src/sync/watcher.ts:110-113`) -/

def watcherShouldIgnore (filePath : String) : Bool :=
  basename filePath == metadataFileName

/-! ### Conflict-artifact naming (`src/sync/engine.ts:284-288` and `413-417`)

Both the directory-set resolver (`resolveConflict`, keep-both branch) and the
file-set resolver (`syncFileSet`, keep-both branch) build the renamed path
with the same formula:
`const ext = path.extname(p); const base = p.slice(0, -ext.length || undefined);`
`const conflictName = base + ".conflict-" + timestamp + ext;` -/

/-- Index of the last dot of a basename that can start an extension (a dot
at index 0 cannot). -/
def lastDotIdx : List Char → Nat → Option Nat → Option Nat
  | [], _, acc => acc
  | c :: rest, i, acc =>
      lastDotIdx rest (i + 1) (if c == '.' && i ≠ 0 then some i else acc)

/-- Model of `path.extname` (posix): the substring of the basename from its
last dot to the end; a leading dot of the basename does not start an
extension, and a basename with no other dot has the empty extension. -/
def extname (p : String) : String :=
  let bn := (basename p).toList
  match lastDotIdx bn 0 none with
  | none => ""
  | some i => String.mk (bn.drop i)

/-- The conflict-renamed sibling of `p` produced by keep-both resolution. -/
def conflictArtifactName (p timestamp : String) : String :=
  let ext := extname p
  let base := if ext.isEmpty then p
              else String.mk (p.toList.take (p.toList.length - ext.toList.length))
  base ++ ".conflict-" ++ timestamp ++ ext

/-! ### Data model (`src/config/types.ts`) -/

/-- One file's state at a point in time (`FileEntry`). -/
structure FileEntry where
  relativePath : String
  size : Nat
  mtimeMs : Int
  hash : String
deriving Repr, DecidableEq

/-- A manifest: relative path → `FileEntry`, modelled as an association list
(a JS object has unique keys; uniqueness is stated as a hypothesis where a
theorem needs it). -/
abbrev Manifest := List (String × FileEntry)

/-- Directory-level sync metadata (`SyncMetadata`). -/
structure SyncMetadata where
  lastSyncTime : Int
  manifest : Manifest
deriving Repr, DecidableEq

/-- Result of diffing two manifests (`ManifestDiff`). -/
structure ManifestDiff where
  added : List FileEntry
  deleted : List FileEntry
  modified : List FileEntry
  unchanged : List FileEntry
deriving Repr, DecidableEq

/-! ### Manifest differ (`src/sync/manifest.ts:128-157`)

The source loops over `Object.entries(currentManifest)` pushing each entry
into exactly one of `added` / `modified` / `unchanged` according to its
lookup in `previousManifest`, then loops over the previous entries pushing
those absent from `currentManifest` into `deleted`; a conditional push loop
is a filter. -/

def diffManifests (previousManifest currentManifest : Manifest) : ManifestDiff where
  added :=
    (currentManifest.filter
      (fun e => (List.lookup e.1 previousManifest).isNone)).map (·.2)
  modified :=
    (currentManifest.filter (fun e =>
      match List.lookup e.1 previousManifest with
      | none => false
      | some prev => prev.hash != e.2.hash)).map (·.2)
  unchanged :=
    (currentManifest.filter (fun e =>
      match List.lookup e.1 previousManifest with
      | none => false
      | some prev => prev.hash == e.2.hash)).map (·.2)
  deleted :=
    (previousManifest.filter
      (fun e => (List.lookup e.1 currentManifest).isNone)).map (·.2)

/-! ### Metadata readers

The on-disk artifact is modelled as `Option (FileContent α)`: `none` when
the artifact file is absent, `some .malformed` when present but
`JSON.parse` would throw, `some (.parsed raw)` when it parses to a value
whose fields `raw` describes (`none` for a field that is absent or of the
wrong JS type). -/

inductive FileContent (α : Type) where
  | malformed : FileContent α
  | parsed : α → FileContent α
deriving Repr, DecidableEq

/-- Fields of a parsed directory metadata JSON value. -/
structure RawDirMeta where
  lastSyncTime : Option Int
  manifest : Option Manifest
deriving Repr, DecidableEq

def jsonParseError : String := "SyntaxError: JSON.parse"

/-- Directory-level metadata reader (`src/sync/metadata.ts:10-30`).
Absence yields `none`; a parse failure or a missing / mistyped required
field throws (modelled as `.error`). -/
def readMetadata (artifact : Option (FileContent RawDirMeta)) :
    Except String (Option SyncMetadata) :=
  match artifact with
  | none => .ok none
  | some .malformed => .error jsonParseError
  | some (.parsed raw) =>
    match raw.lastSyncTime with
    | none => .error "Invalid metadata: missing lastSyncTime"
    | some t =>
      match raw.manifest with
      | none => .error "Invalid metadata: missing manifest"
      | some m => .ok (some { lastSyncTime := t, manifest := m })

/-- File-set sidecar metadata (`src/sync/file-metadata.ts`). -/
structure FileSyncMetadata where
  hash : String
  mtimeMs : Int
  size : Nat
  lastSyncTime : Int
deriving Repr, DecidableEq

/-- Fields of a parsed sidecar JSON value. -/
structure RawFileMeta where
  hash : Option String
  mtimeMs : Option Int
  size : Option Nat
  lastSyncTime : Option Int
deriving Repr, DecidableEq

/-- Sidecar reader (`src/sync/file-metadata.ts`, `readFileMetadata`).
The whole read is wrapped in `try { ... } catch { return null }` and the
field validation returns `null` on failure, so absence, malformed content
and missing fields all yield `none`. -/
def readFileMetadata (artifact : Option (FileContent RawFileMeta)) :
    Option FileSyncMetadata :=
  match artifact with
  | none => none
  | some .malformed => none
  | some (.parsed raw) =>
    match raw.hash, raw.mtimeMs, raw.size, raw.lastSyncTime with
    | some h, some mt, some sz, some t =>
        some { hash := h, mtimeMs := mt, size := sz, lastSyncTime := t }
    | _, _, _, _ => none

/-! ### Conflict-resolution strategies (`src/config/types.ts`) -/

inductive ConflictResolution where
  | keepBoth
  | lastWriteWins
deriving Repr, DecidableEq

/-! ### File-set sync (`src/sync/engine.ts:309-459`, `syncFileSet`) -/

/-- Aggregate result of one pass (`SyncResult`). -/
structure SyncResult where
  syncSetIndex : Nat
  filesAdded : Nat
  filesDeleted : Nat
  filesModified : Nat
  conflicts : Nat
  errors : List String
deriving Repr, DecidableEq

def emptyResult (syncSetIndex : Nat) : SyncResult :=
  { syncSetIndex, filesAdded := 0, filesDeleted := 0, filesModified := 0,
    conflicts := 0, errors := [] }

/-- Per-peer observation made at the start of a file-set pass: does the file
exist, what did the sidecar read yield, and what did `statSync` + `hashFile`
return (`none` models the `catch` around stat / hash — an unreadable or
locked file). -/
structure PeerInput where
  filePath : String
  fileExists : Bool
  metadata : Option FileSyncMetadata
  statResult : Option (String × Int × Nat)
deriving Repr, DecidableEq

/-- The `PeerState` record built for each peer file
(`src/sync/engine.ts:332-358`). -/
structure PeerState where
  filePath : String
  fileExists : Bool
  metadata : Option FileSyncMetadata
  currentHash : Option String
  currentMtimeMs : Option Int
  currentSize : Option Nat
  changed : Bool
deriving Repr, DecidableEq

/-- Build a `PeerState` from one peer's observations; `changed` is
`exists && currentHash !== null && (metadata === null || metadata.hash !== currentHash)`. -/
def mkPeerState (inp : PeerInput) : PeerState :=
  let stat := if inp.fileExists then inp.statResult else none
  let currentHash : Option String := stat.map (·.1)
  let currentMtimeMs : Option Int := stat.map (·.2.1)
  let currentSize : Option Nat := stat.map (·.2.2)
  let changed :=
    inp.fileExists &&
    (match currentHash with
     | none => false
     | some h =>
       match inp.metadata with
       | none => true
       | some m => m.hash != h)
  { filePath := inp.filePath, fileExists := inp.fileExists,
    metadata := inp.metadata, currentHash, currentMtimeMs, currentSize, changed }

/-- `peers.filter((p) => p.changed)`. -/
def changedPeers (peers : List PeerState) : List PeerState :=
  peers.filter (·.changed)

/-- `peers.filter((p) => !p.exists && p.metadata === null)` (computed by the
source; unused by the rest of the pass). -/
def freshPeers (peers : List PeerState) : List PeerState :=
  peers.filter (fun p => !p.fileExists && p.metadata.isNone)

/-- The last-write-wins winner among the changed peers:
`changedPeers.reduce((best, peer) => (peer.currentMtimeMs ?? 0) > (best.currentMtimeMs ?? 0) ? peer : best)`
(JS `reduce` with no initial value seeds with the first element). -/
def lwwWinner (changed : List PeerState) : Option PeerState :=
  match changed with
  | [] => none
  | b :: rest =>
    some (rest.foldl
      (fun best peer =>
        if (peer.currentMtimeMs.getD 0) > (best.currentMtimeMs.getD 0)
        then peer else best) b)

/-- The keep-both winner: the first changed peer in configured order
(`const [winner, ...losers] = changedPeers`). -/
def keepBothWinner (changed : List PeerState) : Option PeerState :=
  changed.head?

/-- Success oracle for the fallible file-set operations: copying the winner
over a destination, and renaming a loser to its conflict name. -/
structure FileOpOracle where
  copyOk : String → String → Bool
  renameOk : String → Bool

/-- The single-changed-peer propagation loop and the two conflict branches
all copy a winner to every other peer; this folds one such copy into the
running result (`modifiedOnly = false` only in the single-winner branch,
where a non-existing destination is recorded as added). -/
def copyWinnerStep (oracle : FileOpOracle) (winner : PeerState)
    (modifiedOnly : Bool) (result : SyncResult) (dest : PeerState) : SyncResult :=
  if dest.filePath == winner.filePath then result
  else if oracle.copyOk winner.filePath dest.filePath then
    if modifiedOnly then { result with filesModified := result.filesModified + 1 }
    else if dest.fileExists then { result with filesModified := result.filesModified + 1 }
    else { result with filesAdded := result.filesAdded + 1 }
  else { result with errors := result.errors ++ ["Error copying to " ++ dest.filePath] }

/-- One file-set pass (`syncFileSet`), reduced to its `SyncResult`;
the disk effects of the copies / renames are not needed by the claims
settled against this model. -/
def syncFileSet (strategy : ConflictResolution) (oracle : FileOpOracle)
    (paths : List PeerInput) (syncSetIndex : Nat) : SyncResult :=
  let result := emptyResult syncSetIndex
  let peers := paths.map mkPeerState
  let changed := changedPeers peers
  match changed with
  | [] => result
  | [source] =>
      peers.foldl (copyWinnerStep oracle source false) result
  | _ :: _ :: _ =>
    let result := { result with conflicts := result.conflicts + changed.length }
    match strategy with
    | .lastWriteWins =>
      match lwwWinner changed with
      | none => result
      | some winner => peers.foldl (copyWinnerStep oracle winner true) result
    | .keepBoth =>
      match changed with
      | [] => result
      | winner :: losers =>
        let result := losers.foldl
          (fun r loser =>
            if oracle.renameOk loser.filePath then r
            else { r with errors :=
              r.errors ++ ["Error renaming conflict file " ++ loser.filePath] })
          result
        peers.foldl (copyWinnerStep oracle winner true) result

/-! ### Directory-set sync (`src/sync/engine.ts:42-299`, `syncSet`)

The live filesystem is a `Disk`: directory path → relative path → optional
file.  A file is its content hash, size and mtime (`copyFileSync` gives the
destination a new mtime, modelled by the pass's `now` parameter).  Fallible
operations consult an `FsOp` success oracle; a `false` answer stands for the
permission / lock errors the TypeScript helpers turn into thrown `Error`s. -/

structure DiskFile where
  hash : String
  size : Nat
  mtimeMs : Int
deriving Repr, DecidableEq

abbrev Disk := String → String → Option DiskFile

def updateDisk (d : Disk) (dir rel : String) (v : Option DiskFile) : Disk :=
  fun dir2 rel2 => if dir2 == dir && rel2 == rel then v else d dir2 rel2

/-- Per-directory state built at pass start (`src/sync/engine.ts:64-71`). -/
structure DirState where
  dirPath : String
  currentManifest : Manifest
  previousManifest : Manifest
  isFresh : Bool
deriving Repr

/-- `previousManifest = previousMetadata?.manifest ?? {}`,
`isFresh = previousMetadata === null`. -/
def mkDirState (dirPath : String) (currentManifest : Manifest)
    (previousMetadata : Option SyncMetadata) : DirState :=
  { dirPath, currentManifest,
    previousManifest := (previousMetadata.map (·.manifest)).getD [],
    isFresh := previousMetadata.isNone }

/-- A `DirState` together with its diff (`src/sync/engine.ts:74-77`). -/
structure PeerCtx where
  st : DirState
  diff : ManifestDiff
deriving Repr

def mkPeerCtx (dirPath : String) (currentManifest : Manifest)
    (previousMetadata : Option SyncMetadata) : PeerCtx :=
  let s := mkDirState dirPath currentManifest previousMetadata
  { st := s, diff := diffManifests s.previousManifest s.currentManifest }

/-- Audit record of one decision in the pairwise loop, tagged with the
ordered pair (source index, destination index) being processed
(the source's `SyncAction` type values). -/
inductive Action where
  | added (srcIdx destIdx : Nat) (relativePath : String)
  | modified (srcIdx destIdx : Nat) (relativePath : String)
  | deleted (srcIdx destIdx : Nat) (relativePath : String)
  | conflict (srcIdx destIdx : Nat) (relativePath : String)
deriving Repr, DecidableEq

/-- Fallible filesystem operations of one pass. -/
inductive FsOp where
  | copy (srcDir destDir relativePath : String)
  | del (dirPath relativePath : String)
  | move (dirPath fromPath toPath : String)
deriving Repr, DecidableEq

/-- Mutable state threaded through one pass: live disk, running result,
action trace. -/
structure PassState where
  disk : Disk
  result : SyncResult
  actions : List Action

def recordAction (a : Action) (st : PassState) : PassState :=
  { st with actions := st.actions ++ [a] }

/-- `copyFile` (`src/sync/engine.ts:178-216`): throws when the source is
unreadable / absent or the destination is locked; otherwise the destination
gets the source's live content with a fresh mtime. -/
def copyFile (oracle : FsOp → Bool) (now : Int) (st : PassState)
    (srcDir destDir rel : String) : Except String PassState :=
  match st.disk srcDir rel with
  | none => .error ("Permission denied reading: " ++ srcDir ++ "/" ++ rel)
  | some f =>
    if oracle (.copy srcDir destDir rel) then
      .ok { st with disk := updateDisk st.disk destDir rel (some { f with mtimeMs := now }) }
    else .error ("File locked or permission denied: " ++ destDir ++ "/" ++ rel)

/-- `deleteFile` (`src/sync/engine.ts:233-260`): a no-op when the file is
already absent; throws on a permission / lock failure.  (The empty-ancestor
pruning acts only on directories, which the file-level `Disk` does not
track.) -/
def deleteFile (oracle : FsOp → Bool) (st : PassState)
    (dirPath rel : String) : Except String PassState :=
  match st.disk dirPath rel with
  | none => .ok st
  | some _ =>
    if oracle (.del dirPath rel) then
      .ok { st with disk := updateDisk st.disk dirPath rel none }
    else .error ("Cannot delete (permission denied or locked): " ++ dirPath ++ "/" ++ rel)

/-- `resolveConflict` (`src/sync/engine.ts:265-299`): last-write-wins stats
both live files and copies source over destination iff the source's mtime is
greater or equal; keep-both renames the live destination file to its
conflict name, then copies the source over the original path. -/
def resolveConflict (oracle : FsOp → Bool) (now : Int) (tsStr : String)
    (strategy : ConflictResolution) (st : PassState)
    (srcDir destDir rel : String) : Except String PassState :=
  match strategy with
  | .lastWriteWins =>
    match st.disk srcDir rel, st.disk destDir rel with
    | some srcStat, some destStat =>
      if srcStat.mtimeMs ≥ destStat.mtimeMs then
        copyFile oracle now st srcDir destDir rel
      else .ok st
    | _, _ => .error ("ENOENT: stat failed for " ++ rel)
  | .keepBoth =>
    let conflictPath := conflictArtifactName rel tsStr
    let renamed : Except String PassState :=
      match st.disk destDir rel with
      | none => .ok st
      | some f =>
        if oracle (.move destDir rel conflictPath) then
          let d1 := updateDisk (updateDisk st.disk destDir rel none) destDir conflictPath (some f)
          .ok { st with disk := d1 }
        else .error ("EPERM: rename failed for " ++ destDir ++ "/" ++ rel)
    match renamed with
    | .error e => .error e
    | .ok st1 => copyFile oracle now st1 srcDir destDir rel

/-- `isModifiedAtDest` (`src/sync/engine.ts:163-172`). -/
def isModifiedAtDest (dest : DirState) (relativePath : String) : Bool :=
  match List.lookup relativePath dest.currentManifest,
        List.lookup relativePath dest.previousManifest with
  | some current, some previous => current.hash != previous.hash
  | _, _ => false

/-- One fallible iteration of the pairwise loop's body. -/
abbrev Step := PassState → Except String PassState

/-- One iteration of the fresh-destination loop
(`src/sync/engine.ts:89-95`): copy, count as added. -/
def freshCopyStep (oracle : FsOp → Bool) (now : Int) (i j : Nat)
    (src dest : PeerCtx) (e : FileEntry) : Step := fun st =>
  (copyFile oracle now st src.st.dirPath dest.st.dirPath e.relativePath).map
    (fun st1 => recordAction (.added i j e.relativePath)
      { st1 with result := { st1.result with filesAdded := st1.result.filesAdded + 1 } })

/-- One iteration of the `diff.added` loop (`src/sync/engine.ts:98-112`). -/
def addedStep (oracle : FsOp → Bool) (now : Int) (tsStr : String)
    (strategy : ConflictResolution) (i j : Nat) (src dest : PeerCtx)
    (e : FileEntry) : Step := fun st =>
  if (List.lookup e.relativePath dest.st.currentManifest).isSome then
    (resolveConflict oracle now tsStr strategy st
        src.st.dirPath dest.st.dirPath e.relativePath).map
      (fun st1 => recordAction (.conflict i j e.relativePath)
        { st1 with result := { st1.result with conflicts := st1.result.conflicts + 1 } })
  else
    (copyFile oracle now st src.st.dirPath dest.st.dirPath e.relativePath).map
      (fun st1 => recordAction (.added i j e.relativePath)
        { st1 with result := { st1.result with filesAdded := st1.result.filesAdded + 1 } })

/-- One iteration of the `diff.modified` loop (`src/sync/engine.ts:115-129`). -/
def modifiedStep (oracle : FsOp → Bool) (now : Int) (tsStr : String)
    (strategy : ConflictResolution) (i j : Nat) (src dest : PeerCtx)
    (e : FileEntry) : Step := fun st =>
  if isModifiedAtDest dest.st e.relativePath then
    (resolveConflict oracle now tsStr strategy st
        src.st.dirPath dest.st.dirPath e.relativePath).map
      (fun st1 => recordAction (.conflict i j e.relativePath)
        { st1 with result := { st1.result with conflicts := st1.result.conflicts + 1 } })
  else
    (copyFile oracle now st src.st.dirPath dest.st.dirPath e.relativePath).map
      (fun st1 => recordAction (.modified i j e.relativePath)
        { st1 with result := { st1.result with filesModified := st1.result.filesModified + 1 } })

/-- One iteration of the `diff.deleted` loop (`src/sync/engine.ts:133-138`). -/
def deletedStep (oracle : FsOp → Bool) (i j : Nat) (dest : PeerCtx)
    (e : FileEntry) : Step := fun st =>
  if !(isModifiedAtDest dest.st e.relativePath) then
    (deleteFile oracle st dest.st.dirPath e.relativePath).map
      (fun st1 => recordAction (.deleted i j e.relativePath)
        { st1 with result := { st1.result with filesDeleted := st1.result.filesDeleted + 1 } })
  else .ok st

/-- The body of one ordered pair, as its sequence of fallible iterations:
the fresh-destination branch copies every entry of the source's current
manifest; otherwise the added, modified and deleted loops run in order. -/
def pairSteps (oracle : FsOp → Bool) (now : Int) (tsStr : String)
    (strategy : ConflictResolution) (i j : Nat) (src dest : PeerCtx) : List Step :=
  if dest.st.isFresh then
    (src.st.currentManifest.map (·.2)).map (freshCopyStep oracle now i j src dest)
  else
    src.diff.added.map (addedStep oracle now tsStr strategy i j src dest) ++
    src.diff.modified.map (modifiedStep oracle now tsStr strategy i j src dest) ++
    src.diff.deleted.map (deletedStep oracle i j dest)

/-- Run iterations in order, stopping at the first thrown error and keeping
the state mutated so far (the JS `try` block's semantics). -/
def foldSteps : List Step → PassState → PassState × Option String
  | [], st => (st, none)
  | f :: rest, st =>
    match f st with
    | .ok st1 => foldSteps rest st1
    | .error m => (st, some m)

/-- One ordered pair with its `try { ... } catch` (`src/sync/engine.ts:87-142`):
an error is recorded into the result's error list and the pass moves on. -/
def processPair (oracle : FsOp → Bool) (now : Int) (tsStr : String)
    (strategy : ConflictResolution) (i j : Nat) (src dest : PeerCtx)
    (st : PassState) : PassState :=
  match foldSteps (pairSteps oracle now tsStr strategy i j src dest) st with
  | (st1, none) => st1
  | (st1, some m) =>
    { st1 with result := { st1.result with errors := st1.result.errors ++
        ["Error syncing " ++ src.st.dirPath ++ " -> " ++ dest.st.dirPath ++ ": " ++ m] } }

/-- The pairwise loop over an explicit list of ordered index pairs. -/
def runPassPairs (oracle : FsOp → Bool) (now : Int) (tsStr : String)
    (strategy : ConflictResolution) (peers : List PeerCtx)
    (pairs : List (Nat × Nat)) (st : PassState) : PassState :=
  pairs.foldl
    (fun st pr =>
      match peers[pr.1]?, peers[pr.2]? with
      | some src, some dest => processPair oracle now tsStr strategy pr.1 pr.2 src dest st
      | _, _ => st)
    st

/-- The source's iteration order: `i` from `0`, inner `j` from `0`,
skipping `i = j` (`src/sync/engine.ts:80-82`). -/
def defaultPairs (n : Nat) : List (Nat × Nat) :=
  (List.range n).flatMap
    (fun i => (List.range n).filterMap (fun j => if i == j then none else some (i, j)))

/-- Per-peer observations made before a directory pass: `fs.existsSync`,
`buildManifest`, and a successful `readMetadata` (a corrupt metadata file
would throw out of the pass before any of this runs). -/
structure DirPeerInput where
  dirPath : String
  dirExists : Bool
  currentManifest : Manifest
  previousMetadata : Option SyncMetadata
deriving Repr

/-- One directory-set pass (`syncSet`): the existence validation of
`src/sync/engine.ts:56-62` — a missing peer path pushes an error and returns
at once, before any manifest is consulted — then the pairwise propagation.
(The final per-peer metadata rewrite touches no peer content and is not
modelled.) -/
def syncSet (oracle : FsOp → Bool) (now : Int) (tsStr : String)
    (strategy : ConflictResolution) (inputs : List DirPeerInput)
    (disk : Disk) (syncSetIndex : Nat) : PassState :=
  let result := emptyResult syncSetIndex
  match inputs.find? (fun d => !d.dirExists) with
  | some d =>
    { disk, result := { result with errors := ["Directory does not exist: " ++ d.dirPath] },
      actions := [] }
  | none =>
    let peers := inputs.map (fun d => mkPeerCtx d.dirPath d.currentManifest d.previousMetadata)
    runPassPairs oracle now tsStr strategy peers (defaultPairs peers.length)
      { disk, result, actions := [] }

/-! ## Claims -/

/-- C1.  The claim states that the manifest builder's `shouldIgnore` and the
watcher's `shouldIgnore` are extensionally equal.  They are not: a sidecar
name such as `hosts.sync` is ignored by the manifest builder (it ends in the
sidecar extension) but passes the watcher's filter, which compares the
basename against the exact metadata file name only. -/
theorem c1_ignore_filters_diverge :
    shouldIgnore (fun _ _ => false) [] "hosts.sync" = true ∧
    watcherShouldIgnore "hosts.sync" = false := by
  constructor <;> rfl

/-- C2.  The claim states that every keep-both conflict artifact
`<base>.conflict-<timestamp><ext>` is excluded from future manifests.  The
generated name does not contain the substring `sync-conflict` that the
ignore predicate looks for, so the artifact is not ignored. -/
theorem c2_conflict_artifact_not_ignored :
    conflictArtifactName "notes.txt" "2026-10-11T01-02-03-456Z"
      = "notes.conflict-2026-10-11T01-02-03-456Z.txt" ∧
    shouldIgnore (fun _ _ => false) []
      (conflictArtifactName "notes.txt" "2026-10-11T01-02-03-456Z") = false := by
  constructor <;> rfl

/-- C5 counterexample.  The claim states that a present-but-unparseable
sidecar raises an error; the sidecar reader instead returns `none`, exactly
as it does for an absent sidecar. -/
theorem c5_sidecar_malformed_is_none :
    readFileMetadata (some .malformed) = none ∧ readFileMetadata none = none := by
  constructor <;> rfl

/-- C5 amended.  Only the directory-level reader treats a
present-but-unparseable artifact as a hard error distinct from absence:
`readMetadata` returns `ok none` on absence and an error on malformed
content or a missing required field, while the file-set sidecar reader
returns `none` in every failure case. -/
theorem c5_metadata_reader_split :
    readMetadata none = .ok none ∧
    readMetadata (some .malformed) = .error jsonParseError ∧
    (∀ raw : RawDirMeta, raw.lastSyncTime = none →
      readMetadata (some (.parsed raw)) = .error "Invalid metadata: missing lastSyncTime") ∧
    (∀ raw : RawDirMeta, ∀ t, raw.lastSyncTime = some t → raw.manifest = none →
      readMetadata (some (.parsed raw)) = .error "Invalid metadata: missing manifest") ∧
    readFileMetadata none = none ∧
    readFileMetadata (some .malformed) = none ∧
    (∀ raw : RawFileMeta, raw.hash = none →
      readFileMetadata (some (.parsed raw)) = none) := by
  refine ⟨rfl, rfl, ?_, ?_, rfl, rfl, ?_⟩
  · intro raw h
    simp [readMetadata, h]
  · intro raw t ht hm
    simp [readMetadata, ht, hm]
  · intro raw h
    simp [readFileMetadata, h]

/-- C5 witness: the amended theorem applied at concrete artifacts. -/
theorem c5_metadata_reader_split_witness :
    readMetadata (some (.parsed { lastSyncTime := none, manifest := none }))
      = .error "Invalid metadata: missing lastSyncTime" ∧
    readFileMetadata (some (.parsed
      { hash := none, mtimeMs := some 1, size := some 2, lastSyncTime := some 3 })) = none :=
  ⟨c5_metadata_reader_split.2.2.1 { lastSyncTime := none, manifest := none } rfl,
   c5_metadata_reader_split.2.2.2.2.2.2
     { hash := none, mtimeMs := some 1, size := some 2, lastSyncTime := some 3 } rfl⟩

/-! ### C3: a missing peer path aborts a directory-set pass -/

def c3Disk : Disk := fun d r =>
  if d == "a" && r == "f.txt" then some { hash := "h1", size := 1, mtimeMs := 0 } else none

def c3Inputs : List DirPeerInput :=
  [{ dirPath := "a", dirExists := true,
     currentManifest := [("f.txt", { relativePath := "f.txt", size := 1, mtimeMs := 0, hash := "h1" })],
     previousMetadata := none },
   { dirPath := "b", dirExists := false, currentManifest := [], previousMetadata := none }]

/-- C3.  The claim (and the repository's own tests and architecture notes)
state that a configured peer path that does not exist is created as an empty
directory and the pass proceeds.  The code instead pushes
`Directory does not exist` and returns at once: nothing is propagated, no
action is recorded, and the disk is untouched. -/
theorem c3_missing_dir_aborts_pass :
    (syncSet (fun _ => true) 5 "ts" .keepBoth c3Inputs c3Disk 0).result.errors
      = ["Directory does not exist: b"] ∧
    (syncSet (fun _ => true) 5 "ts" .keepBoth c3Inputs c3Disk 0).result.filesAdded = 0 ∧
    (syncSet (fun _ => true) 5 "ts" .keepBoth c3Inputs c3Disk 0).result.filesDeleted = 0 ∧
    (syncSet (fun _ => true) 5 "ts" .keepBoth c3Inputs c3Disk 0).actions = [] ∧
    (syncSet (fun _ => true) 5 "ts" .keepBoth c3Inputs c3Disk 0).disk = c3Disk :=
  ⟨rfl, rfl, rfl, rfl, rfl⟩

/-! ### C4: the file-set conflicts counter -/

def allOkFileOps : FileOpOracle := { copyOk := fun _ _ => true, renameOk := fun _ => true }

def c4Peer1 : PeerInput :=
  { filePath := "f1", fileExists := true, metadata := none, statResult := some ("h1", 1, 1) }

def c4Peer2 : PeerInput :=
  { filePath := "f2", fileExists := true, metadata := none, statResult := some ("h2", 2, 1) }

/-- C4 counterexample.  With two changed peers the claim predicts
`conflicts = 1` (changed peers minus one); the code adds the full number of
changed peers, for either strategy. -/
theorem c4_conflicts_counts_all_changed :
    (changedPeers ([c4Peer1, c4Peer2].map mkPeerState)).length = 2 ∧
    (syncFileSet .keepBoth allOkFileOps [c4Peer1, c4Peer2] 0).conflicts = 2 ∧
    (syncFileSet .lastWriteWins allOkFileOps [c4Peer1, c4Peer2] 0).conflicts = 2 :=
  ⟨rfl, rfl, rfl⟩

theorem copyFold_conflicts (oracle : FileOpOracle) (w : PeerState) (m : Bool) :
    ∀ (l : List PeerState) (r : SyncResult),
      (l.foldl (copyWinnerStep oracle w m) r).conflicts = r.conflicts := by
  intro l
  induction l with
  | nil => intro r; rfl
  | cons a t ih =>
    intro r
    have hstep : (copyWinnerStep oracle w m r a).conflicts = r.conflicts := by
      unfold copyWinnerStep
      repeat' split
      all_goals rfl
    simp only [List.foldl_cons, ih, hstep]

theorem renameFold_conflicts (oracle : FileOpOracle) :
    ∀ (l : List PeerState) (r : SyncResult),
      (l.foldl (fun r loser =>
          if oracle.renameOk loser.filePath then r
          else { r with errors :=
            r.errors ++ ["Error renaming conflict file " ++ loser.filePath] }) r).conflicts
        = r.conflicts := by
  intro l
  induction l with
  | nil => intro r; rfl
  | cons a t ih =>
    intro r
    simp only [List.foldl_cons, ih]
    split <;> rfl

/-- C4 amended.  In a file-set pass with two or more changed peers the
conflicts counter equals the number of changed peers (not changed minus
one), for both conflict-resolution strategies and any copy / rename
outcomes. -/
theorem c4_amended_conflicts_eq_changed (strategy : ConflictResolution)
    (oracle : FileOpOracle) (inputs : List PeerInput) (idx : Nat)
    (h2 : 2 ≤ (changedPeers (inputs.map mkPeerState)).length) :
    (syncFileSet strategy oracle inputs idx).conflicts
      = (changedPeers (inputs.map mkPeerState)).length := by
  rcases hc : changedPeers (inputs.map mkPeerState) with _ | ⟨a, _ | ⟨b, rest⟩⟩
  · rw [hc] at h2; simp at h2
  · rw [hc] at h2; simp at h2
  · simp only [syncFileSet, hc]
    cases strategy with
    | lastWriteWins =>
      simp only [lwwWinner, copyFold_conflicts]
      simp [emptyResult]
    | keepBoth =>
      simp only [copyFold_conflicts, renameFold_conflicts]
      simp [emptyResult]

/-- C4 amended witness: the amended theorem at a concrete two-changed-peer
set. -/
theorem c4_amended_conflicts_witness :
    (syncFileSet .keepBoth allOkFileOps [c4Peer1, c4Peer2] 0).conflicts
      = (changedPeers ([c4Peer1, c4Peer2].map mkPeerState)).length :=
  c4_amended_conflicts_eq_changed .keepBoth allOkFileOps [c4Peer1, c4Peer2] 0 (by decide)

/-! ### C10: a stat/hash failure makes a peer inert for the pass -/

theorem mem_changedPeers_changed {l : List PeerState} {w : PeerState}
    (h : w ∈ changedPeers l) : w.changed = true := by
  have := List.mem_filter.mp h
  simpa using this.2

theorem lwwFold_mem (rest : List PeerState) (b : PeerState) :
    rest.foldl
      (fun best peer =>
        if (peer.currentMtimeMs.getD 0) > (best.currentMtimeMs.getD 0)
        then peer else best) b ∈ b :: rest := by
  induction rest generalizing b with
  | nil => simp
  | cons a t ih =>
    simp only [List.foldl_cons]
    rcases List.mem_cons.mp
        (ih (if (a.currentMtimeMs.getD 0) > (b.currentMtimeMs.getD 0) then a else b)) with
      h | h
    · rw [h]
      split
      · simp
      · simp
    · simp [h]

theorem lwwWinner_mem {l : List PeerState} {w : PeerState}
    (h : lwwWinner l = some w) : w ∈ l := by
  cases l with
  | nil => simp [lwwWinner] at h
  | cons b rest =>
    simp only [lwwWinner, Option.some.injEq] at h
    rw [← h]
    exact lwwFold_mem rest b

theorem keepBothWinner_mem {l : List PeerState} {w : PeerState}
    (h : keepBothWinner l = some w) : w ∈ l := by
  cases l with
  | nil => simp [keepBothWinner] at h
  | cons b rest =>
    simp only [keepBothWinner, List.head?_cons, Option.some.injEq] at h
    rw [← h]
    simp

/-- C10.  A peer whose file exists but whose stat / hash threw keeps
`currentHash = null` and is classified not changed, so it is never in the
changed set, never the single-winner source, never a last-write-wins or
keep-both conflict winner, and contributes nothing to the conflicts count
(which counts exactly the changed peers). -/
theorem c10_stat_failure_is_inert (inp : PeerInput) (inputs : List PeerInput)
    (hex : inp.fileExists = true) (hstat : inp.statResult = none) :
    (mkPeerState inp).changed = false ∧
    (mkPeerState inp).currentHash = none ∧
    mkPeerState inp ∉ changedPeers (inputs.map mkPeerState) ∧
    (∀ src, changedPeers (inputs.map mkPeerState) = [src] → src ≠ mkPeerState inp) ∧
    (∀ w, lwwWinner (changedPeers (inputs.map mkPeerState)) = some w → w ≠ mkPeerState inp) ∧
    (∀ w, keepBothWinner (changedPeers (inputs.map mkPeerState)) = some w → w ≠ mkPeerState inp) := by
  have hch : (mkPeerState inp).changed = false := by
    simp [mkPeerState, hex, hstat]
  have hhash : (mkPeerState inp).currentHash = none := by
    simp [mkPeerState, hex, hstat]
  have hnotin : mkPeerState inp ∉ changedPeers (inputs.map mkPeerState) := by
    intro hmem
    have := mem_changedPeers_changed hmem
    rw [hch] at this
    exact Bool.false_ne_true this
  refine ⟨hch, hhash, hnotin, ?_, ?_, ?_⟩
  · intro src hsingle heq
    apply hnotin
    rw [hsingle]
    simp [heq]
  · intro w hw heq
    have hmem := lwwWinner_mem hw
    rw [heq] at hmem
    exact hnotin hmem
  · intro w hw heq
    have hmem := keepBothWinner_mem hw
    rw [heq] at hmem
    exact hnotin hmem

def c10Peer : PeerInput :=
  { filePath := "f1", fileExists := true, metadata := none, statResult := none }

/-- C10 witness: the theorem applied to a concrete unreadable peer alongside
one genuinely changed peer. -/
theorem c10_stat_failure_witness :
    (mkPeerState c10Peer).changed = false ∧
    (mkPeerState c10Peer).currentHash = none ∧
    mkPeerState c10Peer ∉ changedPeers ([c10Peer, c4Peer2].map mkPeerState) :=
  ⟨(c10_stat_failure_is_inert c10Peer [c10Peer, c4Peer2] rfl rfl).1,
   (c10_stat_failure_is_inert c10Peer [c10Peer, c4Peer2] rfl rfl).2.1,
   (c10_stat_failure_is_inert c10Peer [c10Peer, c4Peer2] rfl rfl).2.2.1⟩

/-! ### C9: the differ partitions the two key sets -/

/-- The relative paths of a diff component (the sets are "keyed implicitly
by relativePath"). -/
def entryPaths (l : List FileEntry) : List String := l.map (·.relativePath)

theorem lookup_some_mem {m : Manifest} {p : String} {e : FileEntry}
    (h : List.lookup p m = some e) : (p, e) ∈ m := by
  induction m with
  | nil => simp [List.lookup] at h
  | cons kv t ih =>
    rcases kv with ⟨k, v⟩
    simp only [List.lookup] at h
    cases hkp : (p == k) with
    | true =>
      simp only [hkp, Option.some.injEq] at h
      have hk : p = k := by simpa using hkp
      subst hk
      subst h
      exact List.mem_cons_self _ _
    | false =>
      simp only [hkp] at h
      exact List.mem_cons_of_mem _ (ih h)

theorem mem_lookup_isSome {m : Manifest} {p : String} {e : FileEntry}
    (h : (p, e) ∈ m) : (List.lookup p m).isSome := by
  induction m with
  | nil => simp at h
  | cons kv t ih =>
    rcases kv with ⟨k, v⟩
    rcases List.mem_cons.mp h with h1 | h1
    · have hk : p = k := ((Prod.mk.injEq _ _ _ _).mp h1).1
      subst hk
      simp [List.lookup]
    · simp only [List.lookup]
      cases hkp : (p == k) with
      | true => simp
      | false => simpa using ih h1

theorem mem_lookup_eq_of_nodup {m : Manifest} {p : String} {e : FileEntry}
    (hnd : (m.map (·.1)).Nodup) (h : (p, e) ∈ m) : List.lookup p m = some e := by
  induction m with
  | nil => simp at h
  | cons kv t ih =>
    rcases kv with ⟨k, v⟩
    simp only [List.map_cons, List.nodup_cons] at hnd
    rcases List.mem_cons.mp h with h1 | h1
    · have hk : p = k := ((Prod.mk.injEq _ _ _ _).mp h1).1
      have hv : e = v := ((Prod.mk.injEq _ _ _ _).mp h1).2
      subst hk
      subst hv
      simp [List.lookup]
    · have hne : (p == k) = false := by
        apply beq_eq_false_iff_ne.mpr
        intro heq
        apply hnd.1
        subst heq
        exact List.mem_map.mpr ⟨(p, e), h1, rfl⟩
      simp only [List.lookup, hne]
      exact ih hnd.2 h1

theorem mem_added_paths {prev cur : Manifest} {p : String}
    (hcurWf : ∀ pr ∈ cur, pr.2.relativePath = pr.1) :
    p ∈ entryPaths (diffManifests prev cur).added ↔
      (∃ e, (p, e) ∈ cur) ∧ List.lookup p prev = none := by
  simp only [entryPaths, diffManifests, List.map_map, List.mem_map, List.mem_filter,
    Function.comp]
  constructor
  · rintro ⟨pr, ⟨hmem, hf⟩, hrp⟩
    have hk := hcurWf pr hmem
    rw [hk] at hrp
    subst hrp
    exact ⟨⟨pr.2, by simpa using hmem⟩, Option.isNone_iff_eq_none.mp hf⟩
  · rintro ⟨⟨e, hmem⟩, hnone⟩
    refine ⟨(p, e), ⟨hmem, ?_⟩, ?_⟩
    · simp [hnone]
    · exact hcurWf (p, e) hmem

theorem mem_modified_paths {prev cur : Manifest} {p : String}
    (hcurWf : ∀ pr ∈ cur, pr.2.relativePath = pr.1) :
    p ∈ entryPaths (diffManifests prev cur).modified ↔
      ∃ e pe, (p, e) ∈ cur ∧ List.lookup p prev = some pe ∧ pe.hash ≠ e.hash := by
  simp only [entryPaths, diffManifests, List.map_map, List.mem_map, List.mem_filter,
    Function.comp]
  constructor
  · rintro ⟨pr, ⟨hmem, hf⟩, hrp⟩
    have hk := hcurWf pr hmem
    rw [hk] at hrp
    subst hrp
    rcases hlk : List.lookup pr.1 prev with _ | pe
    · rw [hlk] at hf; simp at hf
    · rw [hlk] at hf
      refine ⟨pr.2, pe, by simpa using hmem, rfl, ?_⟩
      simpa using hf
  · rintro ⟨e, pe, hmem, hsome, hne⟩
    refine ⟨(p, e), ⟨hmem, ?_⟩, hcurWf (p, e) hmem⟩
    rw [hsome]
    simpa using hne

theorem mem_unchanged_paths {prev cur : Manifest} {p : String}
    (hcurWf : ∀ pr ∈ cur, pr.2.relativePath = pr.1) :
    p ∈ entryPaths (diffManifests prev cur).unchanged ↔
      ∃ e pe, (p, e) ∈ cur ∧ List.lookup p prev = some pe ∧ pe.hash = e.hash := by
  simp only [entryPaths, diffManifests, List.map_map, List.mem_map, List.mem_filter,
    Function.comp]
  constructor
  · rintro ⟨pr, ⟨hmem, hf⟩, hrp⟩
    have hk := hcurWf pr hmem
    rw [hk] at hrp
    subst hrp
    rcases hlk : List.lookup pr.1 prev with _ | pe
    · rw [hlk] at hf; simp at hf
    · rw [hlk] at hf
      refine ⟨pr.2, pe, by simpa using hmem, rfl, ?_⟩
      simpa using hf
  · rintro ⟨e, pe, hmem, hsome, heq⟩
    refine ⟨(p, e), ⟨hmem, ?_⟩, hcurWf (p, e) hmem⟩
    rw [hsome]
    simpa using heq

theorem mem_deleted_paths {prev cur : Manifest} {p : String}
    (hprevWf : ∀ pr ∈ prev, pr.2.relativePath = pr.1) :
    p ∈ entryPaths (diffManifests prev cur).deleted ↔
      (∃ e, (p, e) ∈ prev) ∧ List.lookup p cur = none := by
  simp only [entryPaths, diffManifests, List.map_map, List.mem_map, List.mem_filter,
    Function.comp]
  constructor
  · rintro ⟨pr, ⟨hmem, hf⟩, hrp⟩
    have hk := hprevWf pr hmem
    rw [hk] at hrp
    subst hrp
    exact ⟨⟨pr.2, by simpa using hmem⟩, Option.isNone_iff_eq_none.mp hf⟩
  · rintro ⟨⟨e, hmem⟩, hnone⟩
    refine ⟨(p, e), ⟨hmem, ?_⟩, hprevWf (p, e) hmem⟩
    simp [hnone]

/-- C9.  For well-formed manifests (each entry's `relativePath` is its key;
current keys unique, as in a JS object): every relative path present in
either input appears in exactly one of the four diff sets; added, unchanged
and modified cover exactly the current keys; deleted, unchanged and
modified cover exactly the previous keys. -/
theorem c9_diff_partition (prev cur : Manifest)
    (hprevWf : ∀ pr ∈ prev, pr.2.relativePath = pr.1)
    (hcurWf : ∀ pr ∈ cur, pr.2.relativePath = pr.1)
    (hcurNodup : (cur.map (·.1)).Nodup) :
    (∀ p, (p ∈ entryPaths (diffManifests prev cur).added ∨
           p ∈ entryPaths (diffManifests prev cur).unchanged ∨
           p ∈ entryPaths (diffManifests prev cur).modified) ↔ p ∈ cur.map (·.1)) ∧
    (∀ p, (p ∈ entryPaths (diffManifests prev cur).deleted ∨
           p ∈ entryPaths (diffManifests prev cur).unchanged ∨
           p ∈ entryPaths (diffManifests prev cur).modified) ↔ p ∈ prev.map (·.1)) ∧
    (∀ p, ¬(p ∈ entryPaths (diffManifests prev cur).added ∧
            p ∈ entryPaths (diffManifests prev cur).deleted)) ∧
    (∀ p, ¬(p ∈ entryPaths (diffManifests prev cur).added ∧
            p ∈ entryPaths (diffManifests prev cur).modified)) ∧
    (∀ p, ¬(p ∈ entryPaths (diffManifests prev cur).added ∧
            p ∈ entryPaths (diffManifests prev cur).unchanged)) ∧
    (∀ p, ¬(p ∈ entryPaths (diffManifests prev cur).deleted ∧
            p ∈ entryPaths (diffManifests prev cur).modified)) ∧
    (∀ p, ¬(p ∈ entryPaths (diffManifests prev cur).deleted ∧
            p ∈ entryPaths (diffManifests prev cur).unchanged)) ∧
    (∀ p, ¬(p ∈ entryPaths (diffManifests prev cur).modified ∧
            p ∈ entryPaths (diffManifests prev cur).unchanged)) := by
  refine ⟨?_, ?_, ?_, ?_, ?_, ?_, ?_, ?_⟩
  · intro p
    constructor
    · rintro (h | h | h)
      · rcases (mem_added_paths hcurWf).mp h with ⟨⟨e, hmem⟩, -⟩
        exact List.mem_map.mpr ⟨(p, e), hmem, rfl⟩
      · rcases (mem_unchanged_paths hcurWf).mp h with ⟨e, pe, hmem, -, -⟩
        exact List.mem_map.mpr ⟨(p, e), hmem, rfl⟩
      · rcases (mem_modified_paths hcurWf).mp h with ⟨e, pe, hmem, -, -⟩
        exact List.mem_map.mpr ⟨(p, e), hmem, rfl⟩
    · intro h
      rcases List.mem_map.mp h with ⟨pr, hmem, hp⟩
      have hmem2 : (p, pr.2) ∈ cur := by
        rw [← hp]
        simpa using hmem
      rcases hlk : List.lookup p prev with _ | pe
      · exact Or.inl ((mem_added_paths hcurWf).mpr ⟨⟨pr.2, hmem2⟩, hlk⟩)
      · by_cases hh : pe.hash = pr.2.hash
        · exact Or.inr (Or.inl ((mem_unchanged_paths hcurWf).mpr ⟨pr.2, pe, hmem2, hlk, hh⟩))
        · exact Or.inr (Or.inr ((mem_modified_paths hcurWf).mpr ⟨pr.2, pe, hmem2, hlk, hh⟩))
  · intro p
    constructor
    · rintro (h | h | h)
      · rcases (mem_deleted_paths hprevWf).mp h with ⟨⟨e, hmem⟩, -⟩
        exact List.mem_map.mpr ⟨(p, e), hmem, rfl⟩
      · rcases (mem_unchanged_paths hcurWf).mp h with ⟨e, pe, -, hsome, -⟩
        exact List.mem_map.mpr ⟨(p, pe), lookup_some_mem hsome, rfl⟩
      · rcases (mem_modified_paths hcurWf).mp h with ⟨e, pe, -, hsome, -⟩
        exact List.mem_map.mpr ⟨(p, pe), lookup_some_mem hsome, rfl⟩
    · intro h
      rcases List.mem_map.mp h with ⟨pr, hmem, hp⟩
      have hmem2 : (p, pr.2) ∈ prev := by
        rw [← hp]
        simpa using hmem
      rcases hlk : List.lookup p cur with _ | ce
      · exact Or.inl ((mem_deleted_paths hprevWf).mpr ⟨⟨pr.2, hmem2⟩, hlk⟩)
      · have hcm : (p, ce) ∈ cur := lookup_some_mem hlk
        have hps : (List.lookup p prev).isSome := mem_lookup_isSome hmem2
        rcases hlp : List.lookup p prev with _ | pe
        · rw [hlp] at hps; simp at hps
        · by_cases hh : pe.hash = ce.hash
          · exact Or.inr (Or.inl ((mem_unchanged_paths hcurWf).mpr ⟨ce, pe, hcm, hlp, hh⟩))
          · exact Or.inr (Or.inr ((mem_modified_paths hcurWf).mpr ⟨ce, pe, hcm, hlp, hh⟩))
  · rintro p ⟨ha, hd⟩
    rcases (mem_added_paths hcurWf).mp ha with ⟨-, hnone⟩
    rcases (mem_deleted_paths hprevWf).mp hd with ⟨⟨e, hmem⟩, -⟩
    have := mem_lookup_isSome hmem
    rw [hnone] at this
    simp at this
  · rintro p ⟨ha, hm⟩
    rcases (mem_added_paths hcurWf).mp ha with ⟨-, hnone⟩
    rcases (mem_modified_paths hcurWf).mp hm with ⟨e, pe, -, hsome, -⟩
    rw [hnone] at hsome
    exact Option.noConfusion hsome
  · rintro p ⟨ha, hu⟩
    rcases (mem_added_paths hcurWf).mp ha with ⟨-, hnone⟩
    rcases (mem_unchanged_paths hcurWf).mp hu with ⟨e, pe, -, hsome, -⟩
    rw [hnone] at hsome
    exact Option.noConfusion hsome
  · rintro p ⟨hd, hm⟩
    rcases (mem_deleted_paths hprevWf).mp hd with ⟨-, hnone⟩
    rcases (mem_modified_paths hcurWf).mp hm with ⟨e, pe, hmem, -, -⟩
    have := mem_lookup_isSome hmem
    rw [hnone] at this
    simp at this
  · rintro p ⟨hd, hu⟩
    rcases (mem_deleted_paths hprevWf).mp hd with ⟨-, hnone⟩
    rcases (mem_unchanged_paths hcurWf).mp hu with ⟨e, pe, hmem, -, -⟩
    have := mem_lookup_isSome hmem
    rw [hnone] at this
    simp at this
  · rintro p ⟨hm, hu⟩
    rcases (mem_modified_paths hcurWf).mp hm with ⟨e, pe, hmemE, hsomeE, hne⟩
    rcases (mem_unchanged_paths hcurWf).mp hu with ⟨f, pf, hmemF, hsomeF, heq⟩
    have hpe : pe = pf := by
      rw [hsomeE] at hsomeF
      exact Option.some_inj.mp hsomeF
    have hef : e = f := by
      have h1 := mem_lookup_eq_of_nodup hcurNodup hmemE
      have h2 := mem_lookup_eq_of_nodup hcurNodup hmemF
      rw [h1] at h2
      exact Option.some_inj.mp h2
    apply hne
    rw [hpe, hef]
    exact heq

def c9Prev : Manifest :=
  [("a", { relativePath := "a", size := 1, mtimeMs := 0, hash := "ha0" }),
   ("b", { relativePath := "b", size := 1, mtimeMs := 0, hash := "hb" })]

def c9Cur : Manifest :=
  [("a", { relativePath := "a", size := 1, mtimeMs := 1, hash := "ha1" }),
   ("c", { relativePath := "c", size := 1, mtimeMs := 0, hash := "hc" })]

/-- C9 witness: the partition theorem applied to concrete manifests, read
off at the added path `c`. -/
theorem c9_diff_partition_witness :
    ("c" ∈ entryPaths (diffManifests c9Prev c9Cur).added ∨
     "c" ∈ entryPaths (diffManifests c9Prev c9Cur).unchanged ∨
     "c" ∈ entryPaths (diffManifests c9Prev c9Cur).modified) ↔
      "c" ∈ c9Cur.map (·.1) :=
  (c9_diff_partition c9Prev c9Cur (by decide) (by decide) (by decide)).1 "c"

/-! ### C6: failure granularity inside the pairwise loop

Scenario: three non-fresh peers `a`, `b`, `c`.  Since its last sync, `a`
added `p1` and deleted `p2`; `b` and `c` are unchanged and still hold `p2`.
The oracle fails exactly the copy of `p1` from `a` to `b`. -/

def c6SrcInput (h1 h2 : String) (s1 s2 : Nat) (mt1 mt2 t0 : Int) : DirPeerInput :=
  { dirPath := "a", dirExists := true,
    currentManifest := [("p1", { relativePath := "p1", size := s1, mtimeMs := mt1, hash := h1 })],
    previousMetadata := some
      { lastSyncTime := t0,
        manifest := [("p2", { relativePath := "p2", size := s2, mtimeMs := mt2, hash := h2 })] } }

def c6PeerInput (dir h2 : String) (s2 : Nat) (mt2 t0 : Int) : DirPeerInput :=
  { dirPath := dir, dirExists := true,
    currentManifest := [("p2", { relativePath := "p2", size := s2, mtimeMs := mt2, hash := h2 })],
    previousMetadata := some
      { lastSyncTime := t0,
        manifest := [("p2", { relativePath := "p2", size := s2, mtimeMs := mt2, hash := h2 })] } }

def c6Disk (h1 h2 : String) (s1 s2 : Nat) (mt1 mtX mtY : Int) : Disk := fun d r =>
  if d == "a" && r == "p1" then some { hash := h1, size := s1, mtimeMs := mt1 }
  else if d == "b" && r == "p2" then some { hash := h2, size := s2, mtimeMs := mtX }
  else if d == "c" && r == "p2" then some { hash := h2, size := s2, mtimeMs := mtY }
  else none

/-- Fails exactly the copy of `p1` from `a` to `b`. -/
def c6Oracle : FsOp → Bool := fun op => !(op == FsOp.copy "a" "b" "p1")

def c6Run (strategy : ConflictResolution) (oracle : FsOp → Bool)
    (h1 h2 : String) (s1 s2 : Nat) (mt1 mt2 mtX mtY t0 now : Int) : PassState :=
  syncSet oracle now "ts" strategy
    [c6SrcInput h1 h2 s1 s2 mt1 mt2 t0, c6PeerInput "b" h2 s2 mt2 t0,
     c6PeerInput "c" h2 s2 mt2 t0]
    (c6Disk h1 h2 s1 s2 mt1 mtX mtY) 0

/-- C6 counterexample.  The claim says a per-file error does not prevent the
remaining entries of the same source-destination pair from being processed.
With the failing oracle, the copy error in pair `a → b` leaves the eligible
deletion of `p2` at `b` unperformed; with the all-success oracle the very
same pass does delete `p2` at `b`. -/
theorem c6_error_skips_rest_of_pair :
    (c6Run .keepBoth c6Oracle "h1" "h2" 1 2 3 4 7 8 0 9).result.errors.length = 1 ∧
    Action.deleted 0 1 "p2" ∉ (c6Run .keepBoth c6Oracle "h1" "h2" 1 2 3 4 7 8 0 9).actions ∧
    (c6Run .keepBoth c6Oracle "h1" "h2" 1 2 3 4 7 8 0 9).disk "b" "p2"
      = some { hash := "h2", size := 2, mtimeMs := 7 } ∧
    Action.deleted 0 1 "p2" ∈ (c6Run .keepBoth (fun _ => true) "h1" "h2" 1 2 3 4 7 8 0 9).actions ∧
    (c6Run .keepBoth (fun _ => true) "h1" "h2" 1 2 3 4 7 8 0 9).disk "b" "p2" = none := by
  refine ⟨rfl, by decide, rfl, by decide, rfl⟩

/-- C6 amended.  The `try` block wraps one ordered pair, so a per-file error
is caught and recorded once for that pair, the pair's remaining entries are
skipped for the pass, and every other ordered pair is still processed: for
any content hashes, sizes and times, the failing `a → b` copy leaves `b`'s
`p2` in place, while the later pair `a → c` still receives `p1` and performs
the deletion of `p2`. -/
theorem c6_amended_pair_granularity (strategy : ConflictResolution)
    (h1 h2 : String) (s1 s2 : Nat) (mt1 mt2 mtX mtY t0 now : Int) :
    (c6Run strategy c6Oracle h1 h2 s1 s2 mt1 mt2 mtX mtY t0 now).result.errors
      = ["Error syncing a -> b: File locked or permission denied: b/p1"] ∧
    (c6Run strategy c6Oracle h1 h2 s1 s2 mt1 mt2 mtX mtY t0 now).disk "b" "p2"
      = some { hash := h2, size := s2, mtimeMs := mtX } ∧
    (c6Run strategy c6Oracle h1 h2 s1 s2 mt1 mt2 mtX mtY t0 now).disk "c" "p1"
      = some { hash := h1, size := s1, mtimeMs := now } ∧
    (c6Run strategy c6Oracle h1 h2 s1 s2 mt1 mt2 mtX mtY t0 now).disk "c" "p2" = none ∧
    (c6Run strategy c6Oracle h1 h2 s1 s2 mt1 mt2 mtX mtY t0 now).actions
      = [Action.added 0 2 "p1", Action.deleted 0 2 "p2"] ∧
    (c6Run strategy c6Oracle h1 h2 s1 s2 mt1 mt2 mtX mtY t0 now).result.filesAdded = 1 ∧
    (c6Run strategy c6Oracle h1 h2 s1 s2 mt1 mt2 mtX mtY t0 now).result.filesDeleted = 1 := by
  have hpairs : defaultPairs 3 = [(0, 1), (0, 2), (1, 0), (1, 2), (2, 0), (2, 1)] := by decide
  simp [c6Run, syncSet, c6SrcInput, c6PeerInput, c6Disk, c6Oracle, emptyResult,
    List.find?, mkPeerCtx, mkDirState, diffManifests,
    hpairs, runPassPairs, processPair, pairSteps, foldSteps, freshCopyStep,
    addedStep, modifiedStep, deletedStep, copyFile, deleteFile, resolveConflict,
    isModifiedAtDest, updateDisk, recordAction, List.lookup, Except.map]

/-! ### C7: last-write-wins convergence for a doubly-modified path -/

def c7Peers (p h0 hA hB : String) (s0 sA sB : Nat) (mt0 mtA mtB t0 : Int) : List PeerCtx :=
  [mkPeerCtx "a" [(p, { relativePath := p, size := sA, mtimeMs := mtA, hash := hA })]
     (some { lastSyncTime := t0,
             manifest := [(p, { relativePath := p, size := s0, mtimeMs := mt0, hash := h0 })] }),
   mkPeerCtx "b" [(p, { relativePath := p, size := sB, mtimeMs := mtB, hash := hB })]
     (some { lastSyncTime := t0,
             manifest := [(p, { relativePath := p, size := s0, mtimeMs := mt0, hash := h0 })] })]

def c7Disk (p hA hB : String) (sA sB : Nat) (mtA mtB : Int) : Disk := fun d r =>
  if d == "a" && r == p then some { hash := hA, size := sA, mtimeMs := mtA }
  else if d == "b" && r == p then some { hash := hB, size := sB, mtimeMs := mtB }
  else none

def c7St (p hA hB : String) (sA sB : Nat) (mtA mtB : Int) : PassState :=
  { disk := c7Disk p hA hB sA sB mtA mtB, result := emptyResult 0, actions := [] }

def c7Run (ord : List (Nat × Nat)) (p h0 hA hB : String) (s0 sA sB : Nat)
    (mt0 mtA mtB t0 now : Int) : PassState :=
  runPassPairs (fun _ => true) now "ts" .lastWriteWins
    (c7Peers p h0 hA hB s0 sA sB mt0 mtA mtB t0) ord (c7St p hA hB sA sB mtA mtB)

/-- C7.  Two non-fresh peers both modified the same path `p` since their
last common sync (`hA ≠ h0`, `hB ≠ h0`, to different content `hA ≠ hB`),
and peer `a`'s modification time is strictly greater.  After one
last-write-wins pass, `p` holds `a`'s content on both peers, for either
processing order of the two ordered pairs (the source's own order is
`defaultPairs 2 = [(0,1),(1,0)]`). -/
theorem c7_lww_newer_content_wins (p h0 hA hB : String) (s0 sA sB : Nat)
    (mt0 mtA mtB t0 now : Int)
    (hA0 : hA ≠ h0) (hB0 : hB ≠ h0) (_hAB : hA ≠ hB) (hmt : mtB < mtA) :
    ((c7Run [(0, 1), (1, 0)] p h0 hA hB s0 sA sB mt0 mtA mtB t0 now).disk "a" p).map
        (·.hash) = some hA ∧
    ((c7Run [(0, 1), (1, 0)] p h0 hA hB s0 sA sB mt0 mtA mtB t0 now).disk "b" p).map
        (·.hash) = some hA ∧
    ((c7Run [(1, 0), (0, 1)] p h0 hA hB s0 sA sB mt0 mtA mtB t0 now).disk "a" p).map
        (·.hash) = some hA ∧
    ((c7Run [(1, 0), (0, 1)] p h0 hA hB s0 sA sB mt0 mtA mtB t0 now).disk "b" p).map
        (·.hash) = some hA := by
  have f1 : (h0 == hA) = false := beq_eq_false_iff_ne.mpr (Ne.symm hA0)
  have f2 : (hA == h0) = false := beq_eq_false_iff_ne.mpr hA0
  have f3 : (h0 == hB) = false := beq_eq_false_iff_ne.mpr (Ne.symm hB0)
  have f4 : (hB == h0) = false := beq_eq_false_iff_ne.mpr hB0
  simp [c7Run, c7Peers, c7St, c7Disk, runPassPairs, mkPeerCtx, mkDirState,
    diffManifests, emptyResult, processPair, pairSteps, foldSteps, freshCopyStep,
    addedStep, modifiedStep, deletedStep, copyFile, deleteFile, resolveConflict,
    isModifiedAtDest, updateDisk, recordAction, List.lookup, Except.map,
    List.filter_cons, List.filter_nil,
    f1, f2, f3, f4, hA0, hB0, Ne.symm hA0, Ne.symm hB0,
    le_of_lt hmt, not_le.mpr hmt]
  rcases le_or_lt mtA now with hnow | hnow
  · simp [hnow, updateDisk, c7Disk]
  · simp [not_le.mpr hnow, updateDisk, c7Disk]

/-! ### C8: fresh peers are pure sinks

Action-trace analysis of one pass: a successful primitive operation touches
only the disk, each loop iteration appends exactly its own audit record, and
delete records can only come from a `diff.deleted` entry of a non-fresh
source processed against a non-fresh destination. -/

theorem copyFile_ok_inv {oracle : FsOp → Bool} {now : Int} {st : PassState}
    {srcDir destDir rel : String} {st1 : PassState}
    (h : copyFile oracle now st srcDir destDir rel = .ok st1) :
    st1.actions = st.actions ∧ st1.result = st.result := by
  unfold copyFile at h
  split at h
  · exact absurd h (by simp)
  · split at h
    · injection h with h1
      subst h1
      exact ⟨rfl, rfl⟩
    · exact absurd h (by simp)

theorem deleteFile_ok_inv {oracle : FsOp → Bool} {st : PassState}
    {dirPath rel : String} {st1 : PassState}
    (h : deleteFile oracle st dirPath rel = .ok st1) :
    st1.actions = st.actions ∧ st1.result = st.result := by
  unfold deleteFile at h
  split at h
  · injection h with h1
    subst h1
    exact ⟨rfl, rfl⟩
  · split at h
    · injection h with h1
      subst h1
      exact ⟨rfl, rfl⟩
    · exact absurd h (by simp)

theorem resolveConflict_ok_inv {oracle : FsOp → Bool} {now : Int} {tsStr : String}
    {strategy : ConflictResolution} {st : PassState} {srcDir destDir rel : String}
    {st1 : PassState}
    (h : resolveConflict oracle now tsStr strategy st srcDir destDir rel = .ok st1) :
    st1.actions = st.actions ∧ st1.result = st.result := by
  unfold resolveConflict at h
  cases strategy with
  | lastWriteWins =>
    simp only at h
    split at h
    · split at h
      · exact copyFile_ok_inv h
      · injection h with h1
        subst h1
        exact ⟨rfl, rfl⟩
    · exact absurd h (by simp)
  | keepBoth =>
    simp only at h
    split at h
    · exact absurd h (by simp)
    · rename_i st2 hst2
      have h2 : st2.actions = st.actions ∧ st2.result = st.result := by
        split at hst2
        · injection hst2 with h1
          subst h1
          exact ⟨rfl, rfl⟩
        · split at hst2
          · injection hst2 with h1
            subst h1
            exact ⟨rfl, rfl⟩
          · exact absurd hst2 (by simp)
      have h3 := copyFile_ok_inv h
      exact ⟨h3.1.trans h2.1, h3.2.trans h2.2⟩

theorem freshCopyStep_ok {oracle : FsOp → Bool} {now : Int} {i j : Nat}
    {src dest : PeerCtx} {e : FileEntry} {st st' : PassState}
    (h : freshCopyStep oracle now i j src dest e st = .ok st') :
    st'.actions = st.actions ++ [Action.added i j e.relativePath] := by
  unfold freshCopyStep at h
  rcases hc : copyFile oracle now st src.st.dirPath dest.st.dirPath e.relativePath with m | st1
  · rw [hc] at h; exact absurd h (by simp [Except.map])
  · rw [hc] at h
    simp only [Except.map] at h
    injection h with h1
    subst h1
    simp [recordAction, (copyFile_ok_inv hc).1]

theorem addedStep_ok {oracle : FsOp → Bool} {now : Int} {tsStr : String}
    {strategy : ConflictResolution} {i j : Nat} {src dest : PeerCtx} {e : FileEntry}
    {st st' : PassState}
    (h : addedStep oracle now tsStr strategy i j src dest e st = .ok st') :
    st'.actions = st.actions ++ [Action.conflict i j e.relativePath] ∨
    st'.actions = st.actions ++ [Action.added i j e.relativePath] := by
  unfold addedStep at h
  split at h
  · rcases hc : resolveConflict oracle now tsStr strategy st
        src.st.dirPath dest.st.dirPath e.relativePath with m | st1
    · rw [hc] at h; exact absurd h (by simp [Except.map])
    · rw [hc] at h
      simp only [Except.map] at h
      injection h with h1
      subst h1
      exact Or.inl (by simp [recordAction, (resolveConflict_ok_inv hc).1])
  · rcases hc : copyFile oracle now st src.st.dirPath dest.st.dirPath e.relativePath
        with m | st1
    · rw [hc] at h; exact absurd h (by simp [Except.map])
    · rw [hc] at h
      simp only [Except.map] at h
      injection h with h1
      subst h1
      exact Or.inr (by simp [recordAction, (copyFile_ok_inv hc).1])

theorem modifiedStep_ok {oracle : FsOp → Bool} {now : Int} {tsStr : String}
    {strategy : ConflictResolution} {i j : Nat} {src dest : PeerCtx} {e : FileEntry}
    {st st' : PassState}
    (h : modifiedStep oracle now tsStr strategy i j src dest e st = .ok st') :
    st'.actions = st.actions ++ [Action.conflict i j e.relativePath] ∨
    st'.actions = st.actions ++ [Action.modified i j e.relativePath] := by
  unfold modifiedStep at h
  split at h
  · rcases hc : resolveConflict oracle now tsStr strategy st
        src.st.dirPath dest.st.dirPath e.relativePath with m | st1
    · rw [hc] at h; exact absurd h (by simp [Except.map])
    · rw [hc] at h
      simp only [Except.map] at h
      injection h with h1
      subst h1
      exact Or.inl (by simp [recordAction, (resolveConflict_ok_inv hc).1])
  · rcases hc : copyFile oracle now st src.st.dirPath dest.st.dirPath e.relativePath
        with m | st1
    · rw [hc] at h; exact absurd h (by simp [Except.map])
    · rw [hc] at h
      simp only [Except.map] at h
      injection h with h1
      subst h1
      exact Or.inr (by simp [recordAction, (copyFile_ok_inv hc).1])

theorem deletedStep_ok {oracle : FsOp → Bool} {i j : Nat} {dest : PeerCtx}
    {e : FileEntry} {st st' : PassState}
    (h : deletedStep oracle i j dest e st = .ok st') :
    st'.actions = st.actions ∨
    st'.actions = st.actions ++ [Action.deleted i j e.relativePath] := by
  unfold deletedStep at h
  split at h
  · rcases hc : deleteFile oracle st dest.st.dirPath e.relativePath with m | st1
    · rw [hc] at h; exact absurd h (by simp [Except.map])
    · rw [hc] at h
      simp only [Except.map] at h
      injection h with h1
      subst h1
      exact Or.inr (by simp [recordAction, (deleteFile_ok_inv hc).1])
  · injection h with h1
    subst h1
    exact Or.inl rfl

/-- What a single loop iteration of the pair `(i, j)` may append: any
record, except that a delete record must carry this pair's indices, a
non-fresh destination, and a non-empty `diff.deleted` on the source. -/
def NewActionOK (i j : Nat) (src dest : PeerCtx) : Action → Prop
  | .deleted i' j' _ =>
      i' = i ∧ j' = j ∧ dest.st.isFresh = false ∧ src.diff.deleted ≠ []
  | _ => True

/-- A step only ever appends pair-appropriate records. -/
def StepActionsOK (i j : Nat) (src dest : PeerCtx) (f : Step) : Prop :=
  ∀ st st', f st = .ok st' →
    ∀ a ∈ st'.actions, a ∈ st.actions ∨ NewActionOK i j src dest a

theorem pairSteps_actions_ok (oracle : FsOp → Bool) (now : Int) (tsStr : String)
    (strategy : ConflictResolution) (i j : Nat) (src dest : PeerCtx) :
    ∀ f ∈ pairSteps oracle now tsStr strategy i j src dest,
      StepActionsOK i j src dest f := by
  intro f hf
  unfold pairSteps at hf
  split at hf
  · rcases List.mem_map.mp hf with ⟨e, he, rfl⟩
    intro st st' hok a ha
    rw [freshCopyStep_ok hok] at ha
    rcases List.mem_append.mp ha with h1 | h1
    · exact Or.inl h1
    · simp only [List.mem_singleton] at h1
      subst h1
      exact Or.inr trivial
  · rename_i hfr
    have hfresh : dest.st.isFresh = false := by
      simpa using hfr
    rcases List.mem_append.mp hf with hf1 | hf1
    · rcases List.mem_append.mp hf1 with hf2 | hf2
      · rcases List.mem_map.mp hf2 with ⟨e, he, rfl⟩
        intro st st' hok a ha
        rcases addedStep_ok hok with h1 | h1 <;>
          · rw [h1] at ha
            rcases List.mem_append.mp ha with h2 | h2
            · exact Or.inl h2
            · simp only [List.mem_singleton] at h2
              subst h2
              exact Or.inr trivial
      · rcases List.mem_map.mp hf2 with ⟨e, he, rfl⟩
        intro st st' hok a ha
        rcases modifiedStep_ok hok with h1 | h1 <;>
          · rw [h1] at ha
            rcases List.mem_append.mp ha with h2 | h2
            · exact Or.inl h2
            · simp only [List.mem_singleton] at h2
              subst h2
              exact Or.inr trivial
    · rcases List.mem_map.mp hf1 with ⟨e, he, rfl⟩
      intro st st' hok a ha
      rcases deletedStep_ok hok with h1 | h1
      · rw [h1] at ha
        exact Or.inl ha
      · rw [h1] at ha
        rcases List.mem_append.mp ha with h2 | h2
        · exact Or.inl h2
        · simp only [List.mem_singleton] at h2
          subst h2
          exact Or.inr ⟨rfl, rfl, hfresh, List.ne_nil_of_mem he⟩

theorem foldSteps_actions_ok {i j : Nat} {src dest : PeerCtx} :
    ∀ (steps : List Step), (∀ f ∈ steps, StepActionsOK i j src dest f) →
      ∀ st, ∀ a ∈ (foldSteps steps st).1.actions,
        a ∈ st.actions ∨ NewActionOK i j src dest a := by
  intro steps
  induction steps with
  | nil =>
    intro _ st a ha
    exact Or.inl ha
  | cons f rest ih =>
    intro hall st a ha
    rw [foldSteps] at ha
    rcases hfs : f st with m | st1
    · rw [hfs] at ha
      exact Or.inl ha
    · rw [hfs] at ha
      rcases ih (fun g hg => hall g (List.mem_cons_of_mem _ hg)) st1 a ha with h1 | h1
      · exact hall f (List.mem_cons_self _ _) st st1 hfs a h1
      · exact Or.inr h1

theorem processPair_actions_ok (oracle : FsOp → Bool) (now : Int) (tsStr : String)
    (strategy : ConflictResolution) (i j : Nat) (src dest : PeerCtx) (st : PassState) :
    ∀ a ∈ (processPair oracle now tsStr strategy i j src dest st).actions,
      a ∈ st.actions ∨ NewActionOK i j src dest a := by
  intro a ha
  unfold processPair at ha
  rcases hfs : foldSteps (pairSteps oracle now tsStr strategy i j src dest) st
      with ⟨st1, e?⟩
  have hmem : a ∈ st1.actions := by
    rw [hfs] at ha
    cases e? with
    | none => exact ha
    | some m => exact ha
  have := foldSteps_actions_ok _
    (pairSteps_actions_ok oracle now tsStr strategy i j src dest) st a
  rw [hfs] at this
  exact this hmem

/-- Delete records always point at two non-fresh peers of the input list. -/
def DelProp (inputs : List DirPeerInput) (i j : Nat) : Prop :=
  ∃ di dj, inputs[i]? = some di ∧ inputs[j]? = some dj ∧
    di.previousMetadata ≠ none ∧ dj.previousMetadata ≠ none

theorem diffManifests_nil_deleted (cur : Manifest) :
    (diffManifests [] cur).deleted = [] := rfl

theorem runPassPairs_deleted_ok (oracle : FsOp → Bool) (now : Int) (tsStr : String)
    (strategy : ConflictResolution) (inputs : List DirPeerInput) :
    ∀ (pairs : List (Nat × Nat)) (st : PassState),
      (∀ i j pth, Action.deleted i j pth ∈ st.actions → DelProp inputs i j) →
      ∀ i j pth,
        Action.deleted i j pth ∈
          (runPassPairs oracle now tsStr strategy
            (inputs.map (fun d => mkPeerCtx d.dirPath d.currentManifest d.previousMetadata))
            pairs st).actions →
        DelProp inputs i j := by
  intro pairs
  induction pairs with
  | nil =>
    intro st hinv i j pth ha
    exact hinv i j pth ha
  | cons pr rest ih =>
    intro st hinv i j pth ha
    rw [runPassPairs, List.foldl_cons] at ha
    rcases h0 : (inputs.map (fun d =>
        mkPeerCtx d.dirPath d.currentManifest d.previousMetadata))[pr.1]? with _ | src
    · rcases h1 : (inputs.map (fun d =>
          mkPeerCtx d.dirPath d.currentManifest d.previousMetadata))[pr.2]? with _ | dest
      · rw [h0, h1] at ha
        exact ih st hinv i j pth (by rw [runPassPairs]; exact ha)
      · rw [h0, h1] at ha
        exact ih st hinv i j pth (by rw [runPassPairs]; exact ha)
    · rcases h1 : (inputs.map (fun d =>
          mkPeerCtx d.dirPath d.currentManifest d.previousMetadata))[pr.2]? with _ | dest
      · rw [h0, h1] at ha
        exact ih st hinv i j pth (by rw [runPassPairs]; exact ha)
      · rw [h0, h1] at ha
        refine ih _ ?_ i j pth (by rw [runPassPairs]; exact ha)
        intro i' j' pth' ha'
        rcases processPair_actions_ok oracle now tsStr strategy pr.1 pr.2 src dest st
            _ ha' with h2 | h2
        · exact hinv i' j' pth' h2
        · obtain ⟨hi, hj, hdfr, hsdel⟩ := h2
          subst hi
          subst hj
          obtain ⟨di, hdi, hsrc⟩ : ∃ di, inputs[pr.1]? = some di ∧
              src = mkPeerCtx di.dirPath di.currentManifest di.previousMetadata := by
            rw [List.getElem?_map] at h0
            rcases hx : inputs[pr.1]? with _ | di
            · rw [hx] at h0; exact absurd h0 (by simp)
            · rw [hx] at h0
              simp only [Option.map_some', Option.some.injEq] at h0
              exact ⟨di, rfl, h0.symm⟩
          obtain ⟨dj, hdj, hdest⟩ : ∃ dj, inputs[pr.2]? = some dj ∧
              dest = mkPeerCtx dj.dirPath dj.currentManifest dj.previousMetadata := by
            rw [List.getElem?_map] at h1
            rcases hx : inputs[pr.2]? with _ | dj
            · rw [hx] at h1; exact absurd h1 (by simp)
            · rw [hx] at h1
              simp only [Option.map_some', Option.some.injEq] at h1
              exact ⟨dj, rfl, h1.symm⟩
          refine ⟨di, dj, hdi, hdj, ?_, ?_⟩
          · intro hnone
            apply hsdel
            rw [hsrc]
            simp only [mkPeerCtx, mkDirState, hnone]
            exact diffManifests_nil_deleted _
          · intro hnone
            rw [hdest] at hdfr
            simp only [mkPeerCtx, mkDirState, hnone] at hdfr
            simp at hdfr

theorem updateDisk_other_dir {d : Disk} {dir rel : String} {v : Option DiskFile}
    {dir' rel' : String} (h : (dir' == dir) = false) :
    updateDisk d dir rel v dir' rel' = d dir' rel' := by
  simp [updateDisk, h]

theorem freshCopyFold (oracle : FsOp → Bool) (now : Int) (i j : Nat)
    (src dest : PeerCtx) (hdir : (src.st.dirPath == dest.st.dirPath) = false) :
    ∀ (entries : List FileEntry) (st : PassState),
      (∀ e ∈ entries, st.disk src.st.dirPath e.relativePath ≠ none) →
      (∀ e ∈ entries, oracle (.copy src.st.dirPath dest.st.dirPath e.relativePath) = true) →
      ∃ out l,
        foldSteps (entries.map (freshCopyStep oracle now i j src dest)) st = (out, none) ∧
        out.actions = st.actions ++ l ∧
        out.result.errors = st.result.errors ∧
        out.result.filesAdded = st.result.filesAdded + entries.length ∧
        (∀ e ∈ entries, Action.added i j e.relativePath ∈ out.actions) ∧
        (∀ p, st.disk dest.st.dirPath p ≠ none → out.disk dest.st.dirPath p ≠ none) ∧
        (∀ e ∈ entries, out.disk dest.st.dirPath e.relativePath ≠ none) := by
  intro entries
  induction entries with
  | nil =>
    intro st _ _
    exact ⟨st, [], rfl, by simp, rfl, rfl, by simp, fun p hp => hp, by simp⟩
  | cons e rest ih =>
    intro st hsrc horacle
    obtain ⟨f, hf⟩ := Option.ne_none_iff_exists'.mp (hsrc e (List.mem_cons_self _ _))
    have hcopy : copyFile oracle now st src.st.dirPath dest.st.dirPath e.relativePath
        = .ok { st with disk := updateDisk st.disk dest.st.dirPath e.relativePath (some { f with mtimeMs := now }) } := by
      simp [copyFile, hf, horacle e (List.mem_cons_self _ _)]
    have hstep : freshCopyStep oracle now i j src dest e st
        = .ok (recordAction (.added i j e.relativePath)
            { disk := updateDisk st.disk dest.st.dirPath e.relativePath (some { f with mtimeMs := now }),
              result := { st.result with filesAdded := st.result.filesAdded + 1 },
              actions := st.actions }) := by
      unfold freshCopyStep
      rw [hcopy]
      rfl
    set st2 := recordAction (.added i j e.relativePath)
      { disk := updateDisk st.disk dest.st.dirPath e.relativePath (some { f with mtimeMs := now }),
        result := { st.result with filesAdded := st.result.filesAdded + 1 },
        actions := st.actions } with hst2
    have hsrc2 : ∀ e' ∈ rest, st2.disk src.st.dirPath e'.relativePath ≠ none := by
      intro e' he'
      rw [hst2]
      simp only [recordAction]
      rw [updateDisk_other_dir hdir]
      exact hsrc e' (List.mem_cons_of_mem _ he')
    have horacle2 : ∀ e' ∈ rest,
        oracle (.copy src.st.dirPath dest.st.dirPath e'.relativePath) = true :=
      fun e' he' => horacle e' (List.mem_cons_of_mem _ he')
    obtain ⟨out, l, hfold, hact, herr, hadd, hmem, hpres, hentry⟩ := ih st2 hsrc2 horacle2
    refine ⟨out, Action.added i j e.relativePath :: l, ?_, ?_, ?_, ?_, ?_, ?_, ?_⟩
    · rw [List.map_cons, foldSteps, hstep]
      exact hfold
    · rw [hact, hst2]
      simp [recordAction]
    · rw [herr, hst2]
      simp [recordAction]
    · rw [hadd, hst2]
      simp only [recordAction, List.length_cons]
      omega
    · intro e' he'
      rcases List.mem_cons.mp he' with h1 | h1
      · subst h1
        rw [hact, hst2]
        simp [recordAction]
      · exact hmem e' h1
    · intro p hp
      apply hpres
      rw [hst2]
      simp only [recordAction]
      unfold updateDisk
      split
      · simp
      · exact hp
    · intro e' he'
      rcases List.mem_cons.mp he' with h1 | h1
      · subst h1
        apply hpres
        rw [hst2]
        simp only [recordAction]
        unfold updateDisk
        simp
      · exact hentry e' h1

/-- C8.  A fresh peer in a directory-set pass is a pure sink.
First conjunct: every delete record of a whole pass names a non-fresh
source and a non-fresh destination — so nothing is ever deleted at a fresh
destination, and a fresh source (whose empty previous manifest gives the
empty deleted diff of the second conjunct) never causes a deletion
anywhere.  Third conjunct: an ordered pair with a fresh destination copies
every entry of the source's current manifest into the destination, records
each as `added` (counted in `filesAdded`), raises no error when the copies
are possible, and leaves every file already present at the destination
present. -/
theorem c8_fresh_peer_pure_sink :
    (∀ (oracle : FsOp → Bool) (now : Int) (tsStr : String)
       (strategy : ConflictResolution) (inputs : List DirPeerInput) (disk0 : Disk)
       (idx i j : Nat) (pth : String),
       Action.deleted i j pth ∈ (syncSet oracle now tsStr strategy inputs disk0 idx).actions →
       DelProp inputs i j) ∧
    (∀ cur : Manifest, (diffManifests [] cur).deleted = []) ∧
    (∀ (oracle : FsOp → Bool) (now : Int) (tsStr : String)
       (strategy : ConflictResolution) (i j : Nat) (src dest : PeerCtx) (st : PassState),
       dest.st.isFresh = true →
       (src.st.dirPath == dest.st.dirPath) = false →
       (∀ e ∈ src.st.currentManifest.map (·.2),
         st.disk src.st.dirPath e.relativePath ≠ none) →
       (∀ e ∈ src.st.currentManifest.map (·.2),
         oracle (.copy src.st.dirPath dest.st.dirPath e.relativePath) = true) →
       (processPair oracle now tsStr strategy i j src dest st).result.errors
           = st.result.errors ∧
       (processPair oracle now tsStr strategy i j src dest st).result.filesAdded
           = st.result.filesAdded + (src.st.currentManifest.map (·.2)).length ∧
       (∀ e ∈ src.st.currentManifest.map (·.2),
         Action.added i j e.relativePath
             ∈ (processPair oracle now tsStr strategy i j src dest st).actions ∧
         (processPair oracle now tsStr strategy i j src dest st).disk
             dest.st.dirPath e.relativePath ≠ none) ∧
       (∀ p, st.disk dest.st.dirPath p ≠ none →
         (processPair oracle now tsStr strategy i j src dest st).disk
             dest.st.dirPath p ≠ none)) := by
  refine ⟨?_, fun cur => rfl, ?_⟩
  · intro oracle now tsStr strategy inputs disk0 idx i j pth ha
    unfold syncSet at ha
    split at ha
    · simp at ha
    · exact runPassPairs_deleted_ok oracle now tsStr strategy inputs _ _
        (fun i' j' pth' h => absurd h (by simp)) i j pth ha
  · intro oracle now tsStr strategy i j src dest st hfresh hdir hsrc horacle
    obtain ⟨out, l, hfold, hact, herr, hadd, hmem, hpres, hentry⟩ :=
      freshCopyFold oracle now i j src dest hdir
        (src.st.currentManifest.map (·.2)) st hsrc horacle
    have hpp : processPair oracle now tsStr strategy i j src dest st = out := by
      unfold processPair pairSteps
      rw [if_pos hfresh, hfold]
    rw [hpp]
    exact ⟨herr, hadd, fun e he => ⟨hmem e he, hentry e he⟩, hpres⟩

def c8Src : PeerCtx :=
  mkPeerCtx "a" [("f.txt", { relativePath := "f.txt", size := 1, mtimeMs := 0, hash := "h1" })]
    (some { lastSyncTime := 0, manifest := [] })

def c8Dest : PeerCtx := mkPeerCtx "b" [] none

def c8St : PassState :=
  { disk := fun d r =>
      if d == "a" && r == "f.txt" then some { hash := "h1", size := 1, mtimeMs := 0 } else none,
    result := emptyResult 0, actions := [] }

/-- C8 witness: the fresh-destination conjunct applied to a concrete
one-file source and an empty fresh destination. -/
theorem c8_fresh_peer_pure_sink_witness :
    (processPair (fun _ => true) 5 "ts" .keepBoth 0 1 c8Src c8Dest c8St).result.errors
        = c8St.result.errors ∧
    (processPair (fun _ => true) 5 "ts" .keepBoth 0 1 c8Src c8Dest c8St).result.filesAdded
        = c8St.result.filesAdded + (c8Src.st.currentManifest.map (·.2)).length :=
  have h := c8_fresh_peer_pure_sink.2.2 (fun _ => true) 5 "ts" .keepBoth 0 1 c8Src c8Dest
    c8St rfl (by decide) (by decide) (by decide)
  ⟨h.1, h.2.1⟩

/-- C7 witness: the last-write-wins convergence theorem at concrete
contents and times. -/
theorem c7_lww_newer_content_wins_witness :
    ((c7Run [(0, 1), (1, 0)] "p" "h0" "hA" "hB" 1 1 1 0 5 3 0 9).disk "a" "p").map
        (·.hash) = some "hA" ∧
    ((c7Run [(0, 1), (1, 0)] "p" "h0" "hA" "hB" 1 1 1 0 5 3 0 9).disk "b" "p").map
        (·.hash) = some "hA" ∧
    ((c7Run [(1, 0), (0, 1)] "p" "h0" "hA" "hB" 1 1 1 0 5 3 0 9).disk "a" "p").map
        (·.hash) = some "hA" ∧
    ((c7Run [(1, 0), (0, 1)] "p" "h0" "hA" "hB" 1 1 1 0 5 3 0 9).disk "b" "p").map
        (·.hash) = some "hA" :=
  c7_lww_newer_content_wins "p" "h0" "hA" "hB" 1 1 1 0 5 3 0 9
    (by decide) (by decide) (by decide) (by decide)

end Synchrotron
